import Mathlib

/-!
Shallow embedding of the waffle-plot tile-allocation code:
`Waffle.create_array` and the colour-list reconciliation of
`Waffle.map_colors` in `waffle_plot.py` (the inline allocation loop of
`waffle_plot_v1.1.py` is textually identical to `create_array`).

Modelling choices: Python numbers are exact rationals, Python ints are
`Int`/`Nat`, Python `round` (banker's rounding) is `rndHalfEven`, the
unbounded `while` loop carries an explicit fuel parameter (`none` means
the loop did not finish within the given fuel), and the two exceptions
the function can raise (unpacking `zip(*[])` of an empty pairing, and
`ZeroDivisionError` in the `proportions_non_zero` comprehension) are an
explicit `Except PyErr`.
-/

set_option allowUnsafeReducibility true
attribute [local semireducible] Rat.add Rat.sub Rat.mul Rat.inv Rat.div

namespace WafflePlot

/-- Python `round`: round half to even, on exact rationals. -/
def rndHalfEven (q : ℚ) : ℤ :=
  if q - ⌊q⌋ < 1/2 then ⌊q⌋
  else if 1/2 < q - ⌊q⌋ then ⌊q⌋ + 1
  else if Even ⌊q⌋ then ⌊q⌋ else ⌊q⌋ + 1

/-- Stable insertion of one (category, value) pair into a list that is
already sorted by value descending: the pair goes after every strictly
larger value and, being the original-order-earliest, before equal ones. -/
def insertDesc (a : String × ℚ) : List (String × ℚ) → List (String × ℚ)
  | [] => [a]
  | b :: l => if a.2 < b.2 then b :: insertDesc a l else a :: b :: l

/-- Line 198-200: `sorted(zip(self.categories, self.values), key=lambda x: x[1],
reverse=True)` — a stable sort by value, descending. -/
def sortDesc : List (String × ℚ) → List (String × ℚ)
  | [] => []
  | a :: l => insertDesc a (sortDesc l)

/-- Lines 214-216: `tiles_per_category = [round(proportion * total) for
proportion in self.proportions_non_zero]`. -/
def tilesPerCategory (props : List ℚ) (total : ℕ) : List ℤ :=
  props.map fun p => rndHalfEven (p * (total : ℚ))

/-- `sum(tiles_per_category[0:k])` (line 241). -/
def prefixSum (tiles : List ℤ) (k : ℕ) : ℤ := (tiles.take k).sum

/-- The value of `category_index` after the first `t` iterations of the
fill loop (lines 234-250): starting from 0, each tile increments
`tile_index` and then increments `category_index` by one exactly when
`tile_index > sum(tiles_per_category[0:category_index])`.  The cell
written at 1-based scan position `t` receives `catAt tiles t`. -/
def catAt (tiles : List ℤ) : ℕ → ℕ
  | 0 => 0
  | t + 1 =>
    let c := catAt tiles t
    if prefixSum tiles c < (t : ℤ) + 1 then c + 1 else c

/-- The filled `self.array` (lines 218-250): `height` rows of `width`
cells.  Vertical: outer loop `i in range(width)`, inner `j in range(height)`,
write `array[j][i]`, so cell `[j][i]` is scan position `i*height + j + 1`.
Horizontal: outer `i in range(height)`, inner `j in range(width)`, write
`array[i][j]`, so cell `[i][j]` is scan position `i*width + j + 1`. -/
def makeGrid (tiles : List ℤ) (w h : ℕ) (vertical : Bool) : List (List ℕ) :=
  if vertical then
    (List.range h).map fun j => (List.range w).map fun i => catAt tiles (i * h + j + 1)
  else
    (List.range h).map fun i => (List.range w).map fun j => catAt tiles (i * w + j + 1)

/-- The `while autoscaling_done is False` loop (lines 210-263): fill the
grid for the current `width × height`; if the number of distinct cell
values (`len(set(flatten))`) is below `len(proportions_non_zero)` then
either retry at `width+1, height+1` (autoscale) or stop as-is; otherwise
stop.  Returns the final `(width, height)`; `none` when the fuel ran out. -/
def allocLoop (props : List ℚ) (vertical autoscale : Bool) :
    ℕ → ℕ → ℕ → Option (ℕ × ℕ)
  | _, _, 0 => none
  | w, h, fuel + 1 =>
    let tiles := tilesPerCategory props (w * h)
    let grid := makeGrid tiles w h vertical
    if grid.flatten.dedup.length < props.length then
      if autoscale then allocLoop props vertical autoscale (w + 1) (h + 1) fuel
      else some (w, h)
    else some (w, h)

/-- The two exceptions `create_array` can raise. -/
inductive PyErr where
  /-- `zip(*sorted(zip(categories, values), ...))` on an empty pairing
  raises "not enough values to unpack". -/
  | valueUnpack
  /-- `float(v) / sum(self.values)` with `sum(self.values) == 0` and some
  `v > 0` (line 203-205). -/
  | zeroDivision
deriving DecidableEq, Repr

/-- The tuple returned by `create_array` (lines 287-294):
`(self.array, self.height, self.width, self.proportions,
self.values_non_zero, self.proportions_non_zero)`. -/
structure AllocResult where
  grid : List (List ℕ)
  height : ℕ
  width : ℕ
  proportions : List ℚ
  valuesNonZero : ℕ
  propsNonZero : List ℚ
deriving DecidableEq, Repr

deriving instance DecidableEq for Except

/-- `self.values` after the sorting step of line 198-200 (note `zip`
truncates to the shorter of the two inputs). -/
def sortedVals (cats : List String) (vals : List ℚ) : List ℚ :=
  (sortDesc (cats.zip vals)).map Prod.snd

/-- Lines 203-205: `self.proportions_non_zero = [float(v) / sum(self.values)
for v in self.values if v > 0]`. -/
def propsNZ (cats : List String) (vals : List ℚ) : List ℚ :=
  ((sortedVals cats vals).filter fun v => decide (0 < v)).map
    fun v => v / (sortedVals cats vals).sum

/-- `Waffle.create_array` (lines 191-294). -/
def createArray (cats : List String) (vals : List ℚ) (w h : ℕ)
    (vertical autoscale : Bool) (fuel : ℕ) : Option (Except PyErr AllocResult) :=
  if (cats.zip vals).isEmpty then some (.error .valueUnpack)
  else
    let svals := sortedVals cats vals
    let valuesNonZero := (svals.filter fun v => decide (0 < v)).length
    if svals.sum = 0 ∧ 0 < valuesNonZero then some (.error .zeroDivision)
    else
      let props := propsNZ cats vals
      match allocLoop props vertical autoscale w h fuel with
      | none => none
      | some (W, H) =>
        let grid := makeGrid (tilesPerCategory props (W * H)) W H vertical
        let vnz :=
          if autoscale then valuesNonZero
          else min valuesNonZero grid.flatten.dedup.length
        let proportions :=
          if svals.any fun v => decide (v ≠ 0) then svals.map fun v => v / svals.sum
          else svals.map fun _ => (1 : ℚ)
        some (.ok ⟨grid, H, W, proportions, vnz, props⟩)

/-- Colour-list reconciliation of `Waffle.map_colors` (lines 309-323):
`None` means colours come from the colormap; a too-short list is extended
with the tail of the colormap colours; a too-long list is cut. -/
def mapColorsC {α : Type} (cmap : ℕ → α) (ncat : ℕ) : Option (List α) → List α
  | none => (List.range ncat).map cmap
  | some cs =>
    if cs.length < ncat then cs ++ ((List.range ncat).map cmap).drop cs.length
    else if ncat < cs.length then cs.take ncat
    else cs

/-- The state of the CALLER's colour list after `map_colors`:
`self.c.extend(...)` (line 317-319) mutates the caller's list in place
(`self.c` aliases it), while the cutting branch `self.c = self.c[:...]`
rebinds `self.c` to a fresh slice and leaves the caller's list intact. -/
def callerCAfter {α : Type} (cmap : ℕ → α) (ncat : ℕ) (cs : List α) : List α :=
  if cs.length < ncat then cs ++ ((List.range ncat).map cmap).drop cs.length
  else cs

/-- The minimum of a list of rationals (`min(proportions_non_zero)`). -/
def minProp : List ℚ → ℚ
  | [] => 1
  | p :: l => l.foldl min p

/-- Transpose of a grid given as a list of rows: `w` and `h` are the
column and row count of the input, so the output has `w` rows of `h`
entries, and its cell `(i, j)` is the input's cell `(j, i)`. -/
def transposeGrid (w h : ℕ) (g : List (List ℕ)) : List (List ℕ) :=
  (List.range w).map fun i => (List.range h).map fun j => (g.getD j []).getD i 0

/-- What `create_array`'s result becomes when the call is made with
`vertical` flipped and width/height swapped: the grid is transposed and
the two dimension fields trade places. -/
def swapResult (r : AllocResult) : AllocResult :=
  { grid := transposeGrid r.width r.height r.grid
    height := r.width
    width := r.height
    proportions := r.proportions
    valuesNonZero := r.valuesNonZero
    propsNonZero := r.propsNonZero }

theorem catAt_zero (tiles : List ℤ) : catAt tiles 0 = 0 := rfl

theorem catAt_succ (tiles : List ℤ) (t : ℕ) :
    catAt tiles (t + 1) =
      if prefixSum tiles (catAt tiles t) < (t : ℤ) + 1 then catAt tiles t + 1
      else catAt tiles t := rfl

theorem catAt_le_succ (tiles : List ℤ) (t : ℕ) :
    catAt tiles t ≤ catAt tiles (t + 1) := by
  rw [catAt_succ]; split <;> omega

theorem catAt_succ_le (tiles : List ℤ) (t : ℕ) :
    catAt tiles (t + 1) ≤ catAt tiles t + 1 := by
  rw [catAt_succ]; split <;> omega

theorem catAt_mono (tiles : List ℤ) {s t : ℕ} (h : s ≤ t) :
    catAt tiles s ≤ catAt tiles t := by
  induction t with
  | zero => have : s = 0 := by omega
            subst this; exact Nat.le_refl _
  | succ t ih =>
    rcases Nat.lt_succ_iff_lt_or_eq.mp (Nat.lt_succ_of_le h) with hs | hs
    · exact (ih (by omega)).trans (catAt_le_succ tiles t)
    · subst hs; exact Nat.le_refl _

theorem one_le_catAt (tiles : List ℤ) {t : ℕ} (h : 1 ≤ t) : 1 ≤ catAt tiles t := by
  have h1 : catAt tiles 1 = 1 := by
    simp [catAt, prefixSum]
  calc 1 = catAt tiles 1 := h1.symm
    _ ≤ catAt tiles t := catAt_mono tiles h

theorem catAt_le_self (tiles : List ℤ) (t : ℕ) : catAt tiles t ≤ t := by
  induction t with
  | zero => exact Nat.le_refl 0
  | succ t ih => have := catAt_succ_le tiles t; omega

theorem catAt_ivt (tiles : List ℤ) {v T : ℕ} (h1 : 1 ≤ v) (h2 : v ≤ catAt tiles T) :
    ∃ t, 1 ≤ t ∧ t ≤ T ∧ catAt tiles t = v := by
  induction T with
  | zero => rw [catAt_zero] at h2; omega
  | succ T ih =>
    by_cases hc : v ≤ catAt tiles T
    · obtain ⟨t, ht1, ht2, ht3⟩ := ih hc
      exact ⟨t, ht1, ht2.trans (Nat.le_succ T), ht3⟩
    · have hstep := catAt_succ_le tiles T
      exact ⟨T + 1, by omega, Nat.le_refl _, by omega⟩

theorem exists_row_major (P : ℕ → Prop) (a b : ℕ) :
    (∃ i, i < a ∧ ∃ j, j < b ∧ P (i * b + j)) ↔ ∃ t, t < a * b ∧ P t := by
  constructor
  · rintro ⟨i, hi, j, hj, hP⟩
    refine ⟨i * b + j, ?_, hP⟩
    calc i * b + j < i * b + b := by omega
      _ = (i + 1) * b := by ring
      _ ≤ a * b := Nat.mul_le_mul_right b hi
  · rintro ⟨t, ht, hP⟩
    rcases Nat.eq_zero_or_pos b with hb | hb
    · subst hb; rw [Nat.mul_zero] at ht; omega
    refine ⟨t / b, (Nat.div_lt_iff_lt_mul hb).mpr ht, t % b, Nat.mod_lt _ hb, ?_⟩
    have hdm := Nat.div_add_mod t b
    rw [Nat.mul_comm (t / b) b, hdm]
    exact hP

theorem exists_col_major (P : ℕ → Prop) (a b : ℕ) :
    (∃ j, j < b ∧ ∃ i, i < a ∧ P (i * b + j)) ↔ ∃ t, t < a * b ∧ P t := by
  rw [← exists_row_major P a b]
  constructor <;> rintro ⟨x, hx, y, hy, hP⟩ <;> exact ⟨y, hy, x, hx, hP⟩

theorem mem_makeGrid {tiles : List ℤ} {w h : ℕ} {vt : Bool} {v : ℕ} :
    v ∈ (makeGrid tiles w h vt).flatten ↔
      ∃ t, 1 ≤ t ∧ t ≤ w * h ∧ catAt tiles t = v := by
  have shift : ∀ T : ℕ, (∃ t, t < T ∧ catAt tiles (t + 1) = v) ↔
      (∃ t, 1 ≤ t ∧ t ≤ T ∧ catAt tiles t = v) := by
    intro T
    constructor
    · rintro ⟨t, ht, hv⟩; exact ⟨t + 1, by omega, by omega, hv⟩
    · rintro ⟨t, ht1, ht2, hv⟩
      exact ⟨t - 1, by omega, by rwa [Nat.sub_add_cancel ht1]⟩
  cases vt with
  | true =>
    calc v ∈ (makeGrid tiles w h true).flatten
        ↔ ∃ j, j < h ∧ ∃ i, i < w ∧ catAt tiles (i * h + j + 1) = v := by
          simp [makeGrid, List.mem_flatten, List.mem_map, List.mem_range]
      _ ↔ ∃ t, t < w * h ∧ catAt tiles (t + 1) = v :=
          exists_col_major (fun t => catAt tiles (t + 1) = v) w h
      _ ↔ _ := shift _
  | false =>
    calc v ∈ (makeGrid tiles w h false).flatten
        ↔ ∃ i, i < h ∧ ∃ j, j < w ∧ catAt tiles (i * w + j + 1) = v := by
          simp [makeGrid, List.mem_flatten, List.mem_map, List.mem_range]
      _ ↔ ∃ t, t < h * w ∧ catAt tiles (t + 1) = v :=
          exists_row_major (fun t => catAt tiles (t + 1) = v) h w
      _ ↔ ∃ t, t < w * h ∧ catAt tiles (t + 1) = v := by rw [Nat.mul_comm h w]
      _ ↔ _ := shift _

theorem toFinset_makeGrid (tiles : List ℤ) (w h : ℕ) (vt : Bool) :
    (makeGrid tiles w h vt).flatten.toFinset = Finset.Icc 1 (catAt tiles (w * h)) := by
  ext v
  rw [List.mem_toFinset, mem_makeGrid, Finset.mem_Icc]
  constructor
  · rintro ⟨t, ht1, ht2, rfl⟩
    exact ⟨one_le_catAt tiles ht1, catAt_mono tiles ht2⟩
  · rintro ⟨h1, h2⟩
    exact catAt_ivt tiles h1 h2

theorem distinct_makeGrid (tiles : List ℤ) (w h : ℕ) (vt : Bool) :
    (makeGrid tiles w h vt).flatten.dedup.length = catAt tiles (w * h) := by
  rw [← List.card_toFinset, toFinset_makeGrid, Nat.card_Icc]
  omega

theorem prefixSum_zero (tiles : List ℤ) : prefixSum tiles 0 = 0 := rfl

theorem le_catAt_of_char (tiles : List ℤ) :
    ∀ v T : ℕ, 1 ≤ v → (∀ j, j < v → prefixSum tiles j + ((v : ℤ) - j) ≤ (T : ℤ)) →
      v ≤ catAt tiles T := by
  intro v
  induction v with
  | zero => omega
  | succ v ih =>
    intro T hv hc
    have hT1 : (1 : ℤ) ≤ (T : ℤ) := by
      have := hc 0 (by omega)
      rw [prefixSum_zero] at this
      omega
    obtain ⟨T', rfl⟩ : ∃ T', T = T' + 1 := ⟨T - 1, by omega⟩
    rcases Nat.eq_zero_or_pos v with hv0 | hv1
    · subst hv0
      exact one_le_catAt tiles (by omega)
    · have hprev : v ≤ catAt tiles T' := by
        refine ih T' hv1 fun j hj => ?_
        have := hc j (by omega)
        push_cast at this ⊢
        omega
      by_cases hge : v + 1 ≤ catAt tiles T'
      · exact hge.trans (catAt_mono tiles (Nat.le_succ T'))
      · have hcv : catAt tiles T' = v := by omega
        have hcond : prefixSum tiles (catAt tiles T') < (T' : ℤ) + 1 := by
          rw [hcv]
          have := hc v (by omega)
          push_cast at this
          omega
        rw [catAt_succ, if_pos hcond, hcv]

theorem char_of_le_catAt (tiles : List ℤ) :
    ∀ T v : ℕ, 1 ≤ v → v ≤ catAt tiles T →
      ∀ j, j < v → prefixSum tiles j + ((v : ℤ) - j) ≤ (T : ℤ) := by
  intro T
  induction T with
  | zero => intro v hv hle; rw [catAt_zero] at hle; omega
  | succ T ih =>
    intro v hv hle j hj
    by_cases hc : v ≤ catAt tiles T
    · have := ih v hv hc j hj
      push_cast
      omega
    · have hc2 := catAt_succ_le tiles T
      have hcond : prefixSum tiles (catAt tiles T) < (T : ℤ) + 1 := by
        by_contra hnc
        have : catAt tiles (T + 1) = catAt tiles T := by
          rw [catAt_succ, if_neg (by omega)]
        omega
      have hveq : v = catAt tiles T + 1 := by omega
      rcases Nat.lt_succ_iff_lt_or_eq.mp (show j < (v - 1) + 1 by omega) with hj2 | hj2
      · have h1v : 1 ≤ v - 1 := by omega
        have := ih (v - 1) h1v (by omega) j hj2
        push_cast at this ⊢
        omega
      · have : j = catAt tiles T := by omega
        subst this
        push_cast
        omega

theorem le_catAt_iff (tiles : List ℤ) {T v : ℕ} (hv : 1 ≤ v) :
    v ≤ catAt tiles T ↔ ∀ j, j < v → prefixSum tiles j + ((v : ℤ) - j) ≤ (T : ℤ) :=
  ⟨char_of_le_catAt tiles T v hv, le_catAt_of_char tiles v T hv⟩

theorem allocLoop_step (props : List ℚ) (vt : Bool) (w h fuel : ℕ)
    (hrej : (makeGrid (tilesPerCategory props (w * h)) w h vt).flatten.dedup.length <
      props.length) :
    allocLoop props vt true w h (fuel + 1) = allocLoop props vt true (w + 1) (h + 1) fuel := by
  simp only [allocLoop]
  rw [if_pos hrej]
  rfl

theorem allocLoop_growth (props : List ℚ) (vt as : Bool) :
    ∀ fuel w h W H, allocLoop props vt as w h fuel = some (W, H) →
      ∃ k, W = w + k ∧ H = h + k := by
  intro fuel
  induction fuel with
  | zero => intro w h W H hsome; simp [allocLoop] at hsome
  | succ fuel ih =>
    intro w h W H hsome
    simp only [allocLoop] at hsome
    split_ifs at hsome with h1 h2
    · obtain ⟨k, hk1, hk2⟩ := ih (w + 1) (h + 1) W H hsome
      exact ⟨k + 1, by omega, by omega⟩
    · obtain ⟨rfl, rfl⟩ : w = W ∧ h = H := by
        simpa using hsome
      exact ⟨0, by omega, by omega⟩
    · obtain ⟨rfl, rfl⟩ : w = W ∧ h = H := by
        simpa using hsome
      exact ⟨0, by omega, by omega⟩

theorem allocLoop_some_accept (props : List ℚ) (vt : Bool) :
    ∀ fuel w h W H, allocLoop props vt true w h fuel = some (W, H) →
      props.length ≤ catAt (tilesPerCategory props (W * H)) (W * H) := by
  intro fuel
  induction fuel with
  | zero => intro w h W H hsome; simp [allocLoop] at hsome
  | succ fuel ih =>
    intro w h W H hsome
    simp only [allocLoop] at hsome
    split_ifs at hsome with h1
    · exact ih (w + 1) (h + 1) W H hsome
    · obtain ⟨rfl, rfl⟩ : w = W ∧ h = H := by
        simpa using hsome
      rw [← distinct_makeGrid (tilesPerCategory props (w * h)) w h vt]
      omega

theorem allocLoop_isSome (props : List ℚ) (vt : Bool) :
    ∀ fuel w h, (∃ k, k < fuel ∧
      ¬((makeGrid (tilesPerCategory props ((w + k) * (h + k))) (w + k) (h + k)
          vt).flatten.dedup.length < props.length)) →
      (allocLoop props vt true w h fuel).isSome := by
  intro fuel
  induction fuel with
  | zero => intro w h ⟨k, hk, _⟩; omega
  | succ fuel ih =>
    intro w h ⟨k, hk, hacc⟩
    simp only [allocLoop]
    by_cases hrej : (makeGrid (tilesPerCategory props (w * h)) w h vt).flatten.dedup.length <
      props.length
    · rw [if_pos hrej]
      have hk0 : k ≠ 0 := by
        rintro rfl
        simp only [Nat.add_zero] at hacc
        exact hacc hrej
      have : (allocLoop props vt true (w + 1) (h + 1) fuel).isSome := by
        refine ih (w + 1) (h + 1) ⟨k - 1, by omega, ?_⟩
        have e1 : w + 1 + (k - 1) = w + k := by omega
        have e2 : h + 1 + (k - 1) = h + k := by omega
        rw [e1, e2]
        exact hacc
      simpa using this
    · rw [if_neg hrej]
      simp

theorem rndHalfEven_le (q : ℚ) : (rndHalfEven q : ℚ) ≤ q + 1 / 2 := by
  have h0 : ((⌊q⌋ : ℤ) : ℚ) ≤ q := Int.floor_le q
  have h1 : q < ⌊q⌋ + 1 := Int.lt_floor_add_one q
  unfold rndHalfEven
  split_ifs with hc1 hc2 hc3 <;> push_cast <;> linarith

theorem le_rndHalfEven (q : ℚ) : q - 1 / 2 ≤ (rndHalfEven q : ℚ) := by
  have h0 : ((⌊q⌋ : ℤ) : ℚ) ≤ q := Int.floor_le q
  have h1 : q < ⌊q⌋ + 1 := Int.lt_floor_add_one q
  unfold rndHalfEven
  split_ifs with hc1 hc2 hc3 <;> push_cast <;> linarith

theorem prefixSum_tilesPerCategory (props : List ℚ) (T k : ℕ) :
    prefixSum (tilesPerCategory props T) k =
      ((props.take k).map fun p => rndHalfEven (p * (T : ℚ))).sum := by
  simp [prefixSum, tilesPerCategory, List.map_take]

theorem sum_map_rnd_le (T : ℕ) : ∀ l : List ℚ,
    (((l.map fun p => rndHalfEven (p * (T : ℚ))).sum : ℤ) : ℚ) ≤
      l.sum * T + l.length / 2 := by
  intro l
  induction l with
  | nil => simp
  | cons p l ih =>
    simp only [List.map_cons, List.sum_cons, List.length_cons]
    have hb := rndHalfEven_le (p * (T : ℚ))
    push_cast at ih ⊢
    rw [add_mul]
    linarith

theorem mul_length_le_sum (m : ℚ) : ∀ l : List ℚ, (∀ x ∈ l, m ≤ x) →
    m * l.length ≤ l.sum := by
  intro l
  induction l with
  | nil => simp
  | cons p l ih =>
    intro hx
    simp only [List.sum_cons, List.length_cons]
    have h1 := hx p (by simp)
    have h2 := ih fun x hxl => hx x (by simp [hxl])
    push_cast
    have he : m * ((l.length : ℚ) + 1) = m * l.length + m := by ring
    rw [he]
    linarith

theorem foldl_min_le_init : ∀ (l : List ℚ) (a : ℚ), l.foldl min a ≤ a := by
  intro l
  induction l with
  | nil => intro a; simp
  | cons b l ih =>
    intro a
    simp only [List.foldl_cons]
    exact (ih (min a b)).trans (min_le_left a b)

theorem foldl_min_le_mem : ∀ (l : List ℚ) (a p : ℚ), p ∈ l → l.foldl min a ≤ p := by
  intro l
  induction l with
  | nil => intro a p hp; simp at hp
  | cons b l ih =>
    intro a p hp
    simp only [List.foldl_cons]
    rcases List.mem_cons.mp hp with rfl | hp
    · exact (foldl_min_le_init l (min a p)).trans (min_le_right a p)
    · exact ih (min a b) p hp

theorem foldl_min_choice : ∀ (l : List ℚ) (a : ℚ), l.foldl min a = a ∨ l.foldl min a ∈ l := by
  intro l
  induction l with
  | nil => intro a; exact Or.inl rfl
  | cons b l ih =>
    intro a
    simp only [List.foldl_cons]
    rcases ih (min a b) with he | hm
    · rcases min_choice a b with hab | hab
      · exact Or.inl (he.trans hab)
      · exact Or.inr (List.mem_cons.mpr (Or.inl (he.trans hab)))
    · exact Or.inr (List.mem_cons.mpr (Or.inr hm))

theorem minProp_le {l : List ℚ} {p : ℚ} (hp : p ∈ l) : minProp l ≤ p := by
  cases l with
  | nil => simp at hp
  | cons b l =>
    rcases List.mem_cons.mp hp with rfl | hp
    · exact foldl_min_le_init l p
    · exact foldl_min_le_mem l b p hp

theorem minProp_mem {l : List ℚ} (h : l ≠ []) : minProp l ∈ l := by
  cases l with
  | nil => exact absurd rfl h
  | cons b l =>
    rcases foldl_min_choice l b with he | hm
    · exact List.mem_cons.mpr (Or.inl he)
    · exact List.mem_cons.mpr (Or.inr hm)

theorem mem_insertDesc {a x : String × ℚ} : ∀ {l : List (String × ℚ)},
    x ∈ insertDesc a l ↔ x = a ∨ x ∈ l := by
  intro l
  induction l with
  | nil => simp [insertDesc]
  | cons b l ih =>
    simp only [insertDesc]
    split_ifs with hlt
    · simp only [List.mem_cons, ih]
      try tauto
    · simp only [List.mem_cons]
      try tauto

theorem mem_sortDesc {x : String × ℚ} : ∀ {l : List (String × ℚ)},
    x ∈ sortDesc l ↔ x ∈ l := by
  intro l
  induction l with
  | nil => simp [sortDesc]
  | cons a l ih =>
    simp only [sortDesc, mem_insertDesc, List.mem_cons, ih]
    try tauto

theorem length_insertDesc (a : String × ℚ) : ∀ l : List (String × ℚ),
    (insertDesc a l).length = l.length + 1 := by
  intro l
  induction l with
  | nil => rfl
  | cons b l ih =>
    simp only [insertDesc]
    split_ifs with hlt
    · simp [ih]
    · simp

theorem length_sortDesc : ∀ l : List (String × ℚ), (sortDesc l).length = l.length := by
  intro l
  induction l with
  | nil => rfl
  | cons a l ih => simp [sortDesc, length_insertDesc, ih]

theorem length_sortedVals (cats : List String) (vals : List ℚ) :
    (sortedVals cats vals).length = min cats.length vals.length := by
  simp [sortedVals, length_sortDesc, List.length_zip]

theorem mem_sortedVals {cats : List String} {vals : List ℚ} {v : ℚ}
    (hv : v ∈ sortedVals cats vals) : v ∈ vals := by
  simp only [sortedVals, List.mem_map] at hv
  obtain ⟨x, hx, rfl⟩ := hv
  exact (List.of_mem_zip (mem_sortDesc.mp hx)).2

theorem accept_of_big {props : List ℚ} (hne : props ≠ [])
    (hpos : ∀ p ∈ props, 0 < p) (hsum : props.sum = 1) {T : ℕ}
    (hT : ((props.length : ℚ) + 1) / (2 * minProp props) ≤ (T : ℚ)) :
    props.length ≤ catAt (tilesPerCategory props T) T := by
  have hN1 : 1 ≤ props.length := by
    cases props with
    | nil => exact absurd rfl hne
    | cons p l => simp
  have hpm : 0 < minProp props := hpos _ (minProp_mem hne)
  have hTpm : ((props.length : ℚ) + 1) / 2 ≤ (T : ℚ) * minProp props := by
    rw [div_le_iff (by positivity)] at hT
    rw [div_le_iff (by norm_num : (0 : ℚ) < 2)]
    have he : (T : ℚ) * (2 * minProp props) = (T : ℚ) * minProp props * 2 := by ring
    linarith [hT, he.symm.le]
  refine le_catAt_of_char _ props.length T hN1 fun j hj => ?_
  have hjq : (j : ℚ) + 1 ≤ (props.length : ℚ) := by exact_mod_cast hj
  have hlen_take : (props.take j).length = j := by
    rw [List.length_take]; omega
  have h1 : ((prefixSum (tilesPerCategory props T) j : ℤ) : ℚ) ≤
      (props.take j).sum * T + (j : ℚ) / 2 := by
    rw [prefixSum_tilesPerCategory]
    have hs := sum_map_rnd_le T (props.take j)
    rwa [hlen_take] at hs
  have hsplit : (props.take j).sum + (props.drop j).sum = 1 := by
    rw [← List.sum_append, List.take_append_drop, hsum]
  have hdrop_ge : minProp props * ((props.length : ℚ) - j) ≤ (props.drop j).sum := by
    have hs := mul_length_le_sum (minProp props) (props.drop j)
      fun x hx => minProp_le (List.mem_of_mem_drop hx)
    rw [List.length_drop, Nat.cast_sub hj.le] at hs
    exact hs
  have hTnn : (0 : ℚ) ≤ (T : ℚ) := Nat.cast_nonneg T
  have step1 : minProp props * ((props.length : ℚ) - j) * T ≤ (props.drop j).sum * T :=
    mul_le_mul_of_nonneg_right hdrop_ge hTnn
  have step2 : ((props.length : ℚ) - j) * (((props.length : ℚ) + 1) / 2) ≤
      ((props.length : ℚ) - j) * ((T : ℚ) * minProp props) :=
    mul_le_mul_of_nonneg_left hTpm (by linarith)
  have step3 : (props.length : ℚ) - (j : ℚ) / 2 ≤
      ((props.length : ℚ) - j) * (((props.length : ℚ) + 1) / 2) := by
    nlinarith [mul_nonneg (show (0 : ℚ) ≤ (props.length : ℚ) - j - 1 + 1 by linarith)
      (show (0 : ℚ) ≤ (props.length : ℚ) by positivity),
      mul_nonneg (show (0 : ℚ) ≤ (props.length : ℚ) - j - 1 + 1 - 1 by linarith)
      (show (0 : ℚ) ≤ (props.length : ℚ) by positivity)]
  have hAT : (props.take j).sum * T = (T : ℚ) - (props.drop j).sum * T := by
    have he : (props.take j).sum = 1 - (props.drop j).sum := by linarith
    rw [he]; ring
  have hkey : ((prefixSum (tilesPerCategory props T) j : ℤ) : ℚ) +
      ((props.length : ℚ) - j) ≤ (T : ℚ) := by
    have he2 : ((props.length : ℚ) - j) * ((T : ℚ) * minProp props) =
        minProp props * ((props.length : ℚ) - j) * T := by ring
    rw [he2] at step2
    linarith
  exact_mod_cast hkey

theorem allocLoop_terminates {props : List ℚ} (hne : props ≠ [])
    (hpos : ∀ p ∈ props, 0 < p) (hsum : props.sum = 1) (vt : Bool) (w h : ℕ) :
    (allocLoop props vt true w h
      (⌈((props.length : ℚ) + 1) / (2 * minProp props)⌉₊ + 1)).isSome := by
  have hpm : 0 < minProp props := hpos _ (minProp_mem hne)
  have hN1 : 1 ≤ props.length := by
    cases props with
    | nil => exact absurd rfl hne
    | cons p l => simp
  have hpm1 : minProp props ≤ 1 := by
    have hmem := minProp_mem hne
    have := List.single_le_sum (fun p hp => (hpos p hp).le) _ hmem
    linarith [this.trans hsum.le]
  have hB1 : (1 : ℚ) ≤ ((props.length : ℚ) + 1) / (2 * minProp props) := by
    rw [le_div_iff (by positivity)]
    have : (1 : ℚ) ≤ (props.length : ℚ) := by exact_mod_cast hN1
    linarith
  have hk1 : 1 ≤ ⌈((props.length : ℚ) + 1) / (2 * minProp props)⌉₊ :=
    Nat.ceil_pos.mpr (by linarith)
  apply allocLoop_isSome
  refine ⟨⌈((props.length : ℚ) + 1) / (2 * minProp props)⌉₊, by omega, ?_⟩
  rw [distinct_makeGrid]
  have hTk : ((props.length : ℚ) + 1) / (2 * minProp props) ≤
      (((w + ⌈((props.length : ℚ) + 1) / (2 * minProp props)⌉₊) *
        (h + ⌈((props.length : ℚ) + 1) / (2 * minProp props)⌉₊) : ℕ) : ℚ) := by
    have h1 := Nat.le_ceil (((props.length : ℚ) + 1) / (2 * minProp props))
    have h2 : ⌈((props.length : ℚ) + 1) / (2 * minProp props)⌉₊ ≤
        (w + ⌈((props.length : ℚ) + 1) / (2 * minProp props)⌉₊) *
          (h + ⌈((props.length : ℚ) + 1) / (2 * minProp props)⌉₊) := by
      calc ⌈((props.length : ℚ) + 1) / (2 * minProp props)⌉₊
          = ⌈((props.length : ℚ) + 1) / (2 * minProp props)⌉₊ * 1 := by omega
        _ ≤ _ := Nat.mul_le_mul (by omega) (by omega)
    calc ((props.length : ℚ) + 1) / (2 * minProp props)
        ≤ (⌈((props.length : ℚ) + 1) / (2 * minProp props)⌉₊ : ℚ) := h1
      _ ≤ _ := by exact_mod_cast h2
  have := accept_of_big hne hpos hsum hTk
  omega

theorem getD_range_map {α : Type} (f : ℕ → α) {n j : ℕ} (hj : j < n) (d : α) :
    ((List.range n).map f).getD j d = f j := by
  rw [List.getD_eq_getElem?_getD, List.getElem?_map, List.getElem?_range hj]
  rfl

theorem makeGrid_swap (tiles : List ℤ) (w h : ℕ) :
    makeGrid tiles h w false = transposeGrid w h (makeGrid tiles w h true) := by
  simp only [makeGrid, transposeGrid, if_true, Bool.false_eq_true, if_false]
  refine List.map_congr_left fun i hi => ?_
  refine List.map_congr_left fun j hj => ?_
  rw [getD_range_map _ (List.mem_range.mp hj) [], getD_range_map _ (List.mem_range.mp hi) 0]

theorem allocLoop_swap (props : List ℚ) (as : Bool) :
    ∀ fuel w h, allocLoop props false as h w fuel =
      Option.map Prod.swap (allocLoop props true as w h fuel) := by
  intro fuel
  induction fuel with
  | zero => intro w h; rfl
  | succ fuel ih =>
    intro w h
    simp only [allocLoop]
    rw [distinct_makeGrid, distinct_makeGrid, Nat.mul_comm h w]
    by_cases hc : catAt (tilesPerCategory props (w * h)) (w * h) < props.length
    · rw [if_pos hc, if_pos hc]
      cases as with
      | true => exact ih (w + 1) (h + 1)
      | false => rfl
    · rw [if_neg hc, if_neg hc]
      rfl

theorem allocLoop_nil (vt as : Bool) (w h fuel : ℕ) :
    allocLoop [] vt as w h (fuel + 1) = some (w, h) := by
  simp only [allocLoop]
  rw [if_neg (by simp)]

theorem createArray_ok {cats : List String} {vals : List ℚ} {w h : ℕ}
    {vt as : Bool} {fuel : ℕ} {r : AllocResult}
    (hr : createArray cats vals w h vt as fuel = some (.ok r)) :
    ∃ W H, allocLoop (propsNZ cats vals) vt as w h fuel = some (W, H) ∧
      r.grid = makeGrid (tilesPerCategory (propsNZ cats vals) (W * H)) W H vt ∧
      r.width = W ∧ r.height = H ∧ r.propsNonZero = propsNZ cats vals ∧
      r.proportions = (if (sortedVals cats vals).any fun v => decide (v ≠ 0)
        then (sortedVals cats vals).map fun v => v / (sortedVals cats vals).sum
        else (sortedVals cats vals).map fun _ => (1 : ℚ)) := by
  simp only [createArray] at hr
  by_cases h1 : (cats.zip vals).isEmpty
  · rw [if_pos h1] at hr; exact absurd hr (by simp)
  rw [if_neg h1] at hr
  by_cases h2 : (sortedVals cats vals).sum = 0 ∧
      0 < ((sortedVals cats vals).filter fun v => decide (0 < v)).length
  · rw [if_pos h2] at hr; exact absurd hr (by simp)
  rw [if_neg h2] at hr
  rcases hloop : allocLoop (propsNZ cats vals) vt as w h fuel with _ | ⟨W, H⟩
  · rw [hloop] at hr; exact absurd hr (by simp)
  · rw [hloop] at hr
    simp only [Option.some.injEq, Except.ok.injEq] at hr
    subst hr
    exact ⟨W, H, rfl, rfl, rfl, rfl, rfl, rfl⟩

theorem propsNZ_length_of_pos {cats : List String} {vals : List ℚ}
    (hlen : cats.length = vals.length) (hpos : ∀ v ∈ vals, 0 < v) :
    (propsNZ cats vals).length = cats.length := by
  simp only [propsNZ, List.length_map]
  rw [List.filter_eq_self.mpr fun v hv => by simpa using hpos v (mem_sortedVals hv)]
  rw [length_sortedVals, hlen, Nat.min_self]

theorem sortedVals_sum_pos {cats : List String} {vals : List ℚ}
    (hlen : cats.length = vals.length) (hne : vals ≠ [])
    (hpos : ∀ v ∈ vals, 0 < v) : 0 < (sortedVals cats vals).sum := by
  apply List.sum_pos
  · intro v hv; exact hpos v (mem_sortedVals hv)
  · have : (sortedVals cats vals).length = vals.length := by
      rw [length_sortedVals, hlen, Nat.min_self]
    intro hnil
    rw [hnil] at this
    exact hne (List.eq_nil_of_length_eq_zero this.symm)

theorem propsNZ_ne_nil {cats : List String} {vals : List ℚ}
    (hlen : cats.length = vals.length) (hne : vals ≠ [])
    (hpos : ∀ v ∈ vals, 0 < v) : propsNZ cats vals ≠ [] := by
  have h := propsNZ_length_of_pos hlen hpos
  intro hnil
  rw [hnil] at h
  have : cats.length = 0 := h.symm
  rw [hlen] at this
  exact hne (List.eq_nil_of_length_eq_zero this)

theorem propsNZ_pos {cats : List String} {vals : List ℚ}
    (hlen : cats.length = vals.length) (hne : vals ≠ [])
    (hpos : ∀ v ∈ vals, 0 < v) : ∀ p ∈ propsNZ cats vals, 0 < p := by
  intro p hp
  simp only [propsNZ, List.mem_map, List.mem_filter] at hp
  obtain ⟨v, ⟨hv, _⟩, rfl⟩ := hp
  exact div_pos (hpos v (mem_sortedVals hv)) (sortedVals_sum_pos hlen hne hpos)

theorem propsNZ_sum {cats : List String} {vals : List ℚ}
    (hlen : cats.length = vals.length) (hne : vals ≠ [])
    (hpos : ∀ v ∈ vals, 0 < v) : (propsNZ cats vals).sum = 1 := by
  have hS := sortedVals_sum_pos hlen hne hpos
  simp only [propsNZ]
  rw [List.filter_eq_self.mpr fun v hv => by simpa using hpos v (mem_sortedVals hv)]
  have he : ((sortedVals cats vals).map fun v => v / (sortedVals cats vals).sum) =
      (sortedVals cats vals).map fun v => v * ((sortedVals cats vals).sum)⁻¹ := by
    simp [div_eq_mul_inv]
  rw [he, List.sum_map_mul_right, List.map_id']
  exact mul_inv_cancel₀ (ne_of_gt hS)

theorem zip_take_min : ∀ (l1 : List String) (l2 : List ℚ),
    (l1.take (min l1.length l2.length)).zip (l2.take (min l1.length l2.length)) =
      l1.zip l2 := by
  intro l1
  induction l1 with
  | nil => intro l2; simp
  | cons a l1 ih =>
    intro l2
    cases l2 with
    | nil => simp
    | cons b l2 =>
      simp only [List.length_cons]
      rw [show min (l1.length + 1) (l2.length + 1) = min l1.length l2.length + 1 by omega]
      simp only [List.take_succ_cons, List.zip_cons_cons, ih]

/-- Claim C2, counterexample to the claim as stated: with categories
`["a","b"]` (so `N = 2`), values `[2,2]`, width 1, height 2, the returned
grid is `[[1],[2]]`; the cell value 2 is not a zero-based category index
in `0..N-1 = {0,1}`. -/
theorem claim2_cx :
    createArray ["a", "b"] [2, 2] 1 2 true true 1 =
      some (.ok ⟨[[1], [2]], 2, 1, [1/2, 1/2], 2, [1/2, 1/2]⟩) ∧
    (2 : ℕ) ∈ ([[1], [2]] : List (List ℕ)).flatten ∧ ¬((2 : ℕ) < 2) := by
  refine ⟨by decide, by decide, by decide⟩

/-- Claim C2 (amended): every cell of any grid returned by `create_array`
holds an integer `v` with `1 ≤ v` and `v ≤ width × height` of the returned
dimensions.  The fill loop writes 1-based indices (`category_index` is
incremented before the first cell is written), and a cell value can exceed
the number of categories, so the claimed range `0..N-1` is wrong. -/
theorem claim2_cells_one_based {cats : List String} {vals : List ℚ} {w h : ℕ}
    {vt as : Bool} {fuel : ℕ} {r : AllocResult}
    (hr : createArray cats vals w h vt as fuel = some (.ok r)) :
    ∀ row ∈ r.grid, ∀ v ∈ row, 1 ≤ v ∧ v ≤ r.width * r.height := by
  obtain ⟨W, H, hloop, hgrid, hW, hH, _, _⟩ := createArray_ok hr
  intro row hrow v hv
  rw [hgrid] at hrow
  have hmem : v ∈ (makeGrid (tilesPerCategory (propsNZ cats vals) (W * H)) W
      H vt).flatten := List.mem_flatten.mpr ⟨row, hrow, hv⟩
  obtain ⟨t, ht1, ht2, rfl⟩ := mem_makeGrid.mp hmem
  refine ⟨one_le_catAt _ ht1, ?_⟩
  rw [hW, hH]
  exact (catAt_le_self _ t).trans ht2

/-- Claim C2, witness: the amended theorem applied to the concrete run
`createArray ["a","b"] [3,1] 2 2` whose grid is `[[1,1],[1,2]]`. -/
theorem claim2_witness : (1 : ℕ) ≤ 2 ∧ (2 : ℕ) ≤ 2 * 2 :=
  claim2_cells_one_based
    (by decide : createArray ["a", "b"] [3, 1] 2 2 true true 1 =
      some (.ok ⟨[[1, 1], [1, 2]], 2, 2, [3/4, 1/4], 2, [3/4, 1/4]⟩))
    [1, 2] (by decide) 2 (by decide)

/-- Claim C3, counterexample to the claim as stated: categories
`["a","b"]` and values `[5]` have different lengths, yet `create_array`
does not fail: it returns a normal result built from the single zipped
pair `("a", 5)`. -/
theorem claim3_cx :
    (["a", "b"] : List String).length ≠ ([(5 : ℚ)] : List ℚ).length ∧
    createArray ["a", "b"] [(5 : ℚ)] 1 1 true true 1 =
      some (.ok ⟨[[1]], 1, 1, [1], 1, [1]⟩) := by
  refine ⟨by decide, by decide⟩

/-- Claim C3 (amended): on mismatched-length inputs `create_array` does
not fail with any `InvalidInput` condition; `zip` silently truncates both
sequences to the shorter length and the allocation proceeds on the
truncated pairs, returning exactly what it returns for the truncated
input. -/
theorem claim3_truncates {cats : List String} {vals : List ℚ}
    (hne : cats.length ≠ vals.length) (w h : ℕ) (vt as : Bool) (fuel : ℕ) :
    createArray cats vals w h vt as fuel =
      createArray (cats.take (min cats.length vals.length))
        (vals.take (min cats.length vals.length)) w h vt as fuel := by
  simp only [createArray, sortedVals, propsNZ]
  rw [zip_take_min]

/-- Claim C3, witness: the amended theorem applied to `["a","b"]` versus
`[5]`, whose truncation is `["a"]`, `[5]`. -/
theorem claim3_witness :
    createArray ["a", "b"] [(5 : ℚ)] 2 3 true true 2 =
      createArray ((["a", "b"] : List String).take
          (min (["a", "b"] : List String).length ([(5 : ℚ)] : List ℚ).length))
        (([(5 : ℚ)] : List ℚ).take
          (min (["a", "b"] : List String).length ([(5 : ℚ)] : List ℚ).length))
        2 3 true true 2 :=
  claim3_truncates (by decide) 2 3 true true 2

/-- Claim C5 (confirmed): autoscaling never shrinks the grid.  Each
retry of the allocation loop moves from `(w, h)` to exactly
`(w + 1, h + 1)`, and any returned result has `width ≥ w`, `height ≥ h`,
grown by the same amount in both directions. -/
theorem claim5_monotonic_growth :
    (∀ (props : List ℚ) (vt : Bool) (w h fuel : ℕ),
      (makeGrid (tilesPerCategory props (w * h)) w h vt).flatten.dedup.length <
          props.length →
        allocLoop props vt true w h (fuel + 1) =
          allocLoop props vt true (w + 1) (h + 1) fuel) ∧
    (∀ (cats : List String) (vals : List ℚ) (w h : ℕ) (vt as : Bool)
      (fuel : ℕ) (r : AllocResult),
        createArray cats vals w h vt as fuel = some (.ok r) →
        w ≤ r.width ∧ h ≤ r.height ∧ r.width - w = r.height - h) := by
  constructor
  · exact allocLoop_step
  · intro cats vals w h vt as fuel r hr
    obtain ⟨W, H, hloop, _, hW, hH, _, _⟩ := createArray_ok hr
    obtain ⟨k, hk1, hk2⟩ := allocLoop_growth (propsNZ cats vals) vt as fuel w h W H hloop
    rw [hW, hH]
    omega

/-- Claim C5, witness: one rejected retry at `(1,1)` moves to `(2,2)`,
and the concrete run `createArray ["a","b"] [3,1] 1 1` (autoscaled once,
to `2 × 2`) has final dimensions at least the requested ones. -/
theorem claim5_witness :
    allocLoop [9/10, 1/10] true true 1 1 3 = allocLoop [9/10, 1/10] true true 2 2 2 ∧
    ((1 : ℕ) ≤ 2 ∧ (1 : ℕ) ≤ 2 ∧ 2 - 1 = 2 - 1) := by
  constructor
  · exact claim5_monotonic_growth.1 [9/10, 1/10] true 1 1 2 (by decide)
  · exact claim5_monotonic_growth.2 ["a", "b"] [3, 1] 1 1 true true 2
      ⟨[[1, 1], [1, 2]], 2, 2, [3/4, 1/4], 2, [3/4, 1/4]⟩ (by decide)

/-- Claim C1, counterexample to the claim as stated: for categories
`["a"]`, values `[1]` (equal lengths, all positive), autoscale on, the
final grid is `[[1]]`: the category index 0 (the only index in `0..N-1`)
never appears, because the fill loop writes 1-based values. -/
theorem claim1_cx :
    createArray ["a"] [1] 1 1 true true 1 =
      some (.ok ⟨[[1]], 1, 1, [1], 1, [1]⟩) ∧
    (0 : ℕ) ∉ ([[1]] : List (List ℕ)).flatten := by
  refine ⟨by decide, by decide⟩

/-- Claim C1 (amended): with equal-length inputs, every value strictly
positive and autoscale on, every category is represented in any returned
final grid — category `k` of the sorted order (`0 ≤ k < N`) appears as
the cell value `k + 1`, the fill loop's 1-based index for it.  (As
literally stated — index `k` itself in the grid — the claim fails: 0
never occurs, see the counterexample.) -/
theorem claim1_coverage {cats : List String} {vals : List ℚ}
    (hlen : cats.length = vals.length) (hpos : ∀ v ∈ vals, 0 < v)
    {w h : ℕ} {vt : Bool} {fuel : ℕ} {r : AllocResult}
    (hr : createArray cats vals w h vt true fuel = some (.ok r)) :
    ∀ k < cats.length, k + 1 ∈ r.grid.flatten := by
  obtain ⟨W, H, hloop, hgrid, hW, hH, _, _⟩ := createArray_ok hr
  intro k hk
  have haccept := allocLoop_some_accept (propsNZ cats vals) vt fuel w h W H hloop
  have hNlen := propsNZ_length_of_pos hlen hpos
  rw [hgrid, mem_makeGrid]
  have hcat : k + 1 ≤ catAt (tilesPerCategory (propsNZ cats vals) (W * H)) (W * H) := by
    rw [hNlen] at haccept; omega
  exact catAt_ivt _ (by omega) hcat

/-- Claim C1, witness: the amended theorem applied to
`createArray ["a","b"] [3,1] 2 2` (grid `[[1,1],[1,2]]`) at category 1,
which appears as cell value 2. -/
theorem claim1_witness : (2 : ℕ) ∈ ([[1, 1], [1, 2]] : List (List ℕ)).flatten :=
  claim1_coverage (by decide) (by decide)
    (by decide : createArray ["a", "b"] [3, 1] 2 2 true true 1 =
      some (.ok ⟨[[1, 1], [1, 2]], 2, 2, [3/4, 1/4], 2, [3/4, 1/4]⟩))
    1 (by decide)

/-- Claim C4, counterexample to the claim as stated: the input values
`[1, -1]` sum to zero, yet `create_array` raises `ZeroDivisionError`
while computing `proportions_non_zero` (the comprehension divides the
positive value 1 by `sum(values) = 0`). -/
theorem claim4_cx :
    ([(1 : ℚ), -1]).sum = 0 ∧
    createArray ["a", "b"] [1, -1] 2 2 true true 3 =
      some (.error .zeroDivision) := by
  refine ⟨by decide, by decide⟩

/-- Claim C4 (amended): for every nonempty equal-length input whose
values are ALL ZERO, `create_array` raises no error (in particular no
division by zero), the returned grid has the requested width and height,
and every returned proportion is the placeholder 1.  The broader original
claim — any input summing to zero — is false: a zero-sum input with a
positive entry raises `ZeroDivisionError` (see the counterexample). -/
theorem claim4_degenerate_zero {cats : List String} {vals : List ℚ}
    (hlen : cats.length = vals.length) (hne : vals ≠ [])
    (hz : ∀ v ∈ vals, v = 0) (w h : ℕ) (vt as : Bool) (fuel : ℕ) :
    ∃ r, createArray cats vals w h vt as (fuel + 1) = some (.ok r) ∧
      r.width = w ∧ r.height = h ∧ r.grid.length = h ∧
      (∀ row ∈ r.grid, row.length = w) ∧
      r.proportions = List.replicate vals.length (1 : ℚ) := by
  have hzs : ∀ v ∈ sortedVals cats vals, v = 0 := fun v hv => hz v (mem_sortedVals hv)
  have hlen_s : (sortedVals cats vals).length = vals.length := by
    rw [length_sortedVals, hlen, Nat.min_self]
  have hfilter : ((sortedVals cats vals).filter fun v => decide (0 < v)) = [] := by
    rw [List.filter_eq_nil_iff]
    intro v hv
    simp [hzs v hv]
  have hprops : propsNZ cats vals = [] := by
    simp [propsNZ, hfilter]
  have hzipne : ¬(cats.zip vals).isEmpty := by
    have hl : (cats.zip vals).length = vals.length := by
      rw [List.length_zip, hlen, Nat.min_self]
    simp only [List.isEmpty_iff]
    intro hnil
    rw [hnil] at hl
    exact hne (List.eq_nil_of_length_eq_zero hl.symm)
  have hany : ((sortedVals cats vals).any fun v => decide (v ≠ 0)) = false := by
    rw [List.any_eq_false]
    intro v hv
    simp [hzs v hv]
  refine ⟨⟨makeGrid (tilesPerCategory [] (w * h)) w h vt, h, w,
    List.replicate vals.length 1, 0, []⟩, ?_, rfl, rfl, ?_, ?_, rfl⟩
  · simp only [createArray]
    rw [if_neg hzipne, hfilter]
    rw [if_neg (by simp)]
    rw [hprops, allocLoop_nil]
    rw [hany]
    simp only [Bool.false_eq_true, if_false, List.length_nil, Nat.zero_min, ite_self]
    have hmapone : ((sortedVals cats vals).map fun _ => (1 : ℚ)) =
        List.replicate vals.length 1 := by
      rw [← hlen_s, ← List.map_const']
    rw [hmapone]
  · cases vt <;> simp [makeGrid]
  · intro row hrow
    cases vt <;>
      (simp only [makeGrid, if_true, Bool.false_eq_true, if_false, List.mem_map,
        List.mem_range] at hrow;
       obtain ⟨i, _, rfl⟩ := hrow;
       simp)

/-- Claim C4, witness: the amended theorem applied to the all-zero input
`["a","b"]`, `[0,0]` with a requested 3 × 2 grid. -/
theorem claim4_witness :
    ∃ r, createArray ["a", "b"] [0, 0] 3 2 true true 1 = some (.ok r) ∧
      r.width = 3 ∧ r.height = 2 ∧ r.grid.length = 2 ∧
      (∀ row ∈ r.grid, row.length = 3) ∧
      r.proportions = List.replicate ([(0 : ℚ), 0]).length (1 : ℚ) :=
  claim4_degenerate_zero (by decide) (by decide) (by decide) 3 2 true true 0

/-- Claim C8 (confirmed): tile counts are `round(p × width × height)`
under round-half-to-even — `rndHalfEven` is a faithful rounding (within
1/2) that sends every exact half to an even integer — and the counts are
not corrected to sum to `width × height`: for values `[98,1,1]` on a
5 × 5 grid the counts are `[24,0,0]` (24.5 rounds down to even 24, 0.25
rounds to 0), summing to 24 ≠ 25. -/
theorem claim8_rounding :
    (∀ (props : List ℚ) (total : ℕ),
      tilesPerCategory props total = props.map fun p => rndHalfEven (p * (total : ℚ))) ∧
    (∀ q : ℚ, |q - (rndHalfEven q : ℚ)| ≤ 1 / 2) ∧
    (∀ k : ℤ, Even (rndHalfEven ((k : ℚ) + 1 / 2))) ∧
    tilesPerCategory (propsNZ ["a", "b", "c"] [98, 1, 1]) 25 = [24, 0, 0] ∧
    (tilesPerCategory (propsNZ ["a", "b", "c"] [98, 1, 1]) 25).sum ≠ 25 := by
  refine ⟨fun _ _ => rfl, ?_, ?_, by decide, by decide⟩
  · intro q
    have h1 := rndHalfEven_le q
    have h2 := le_rndHalfEven q
    rw [abs_le]
    constructor <;> linarith
  · intro k
    have hhalf : ⌊(1 / 2 : ℚ)⌋ = 0 := by decide
    have hf : ⌊(k : ℚ) + 1 / 2⌋ = k := by
      rw [add_comm, Int.floor_add_int, hhalf]
      omega
    unfold rndHalfEven
    rw [hf]
    have hfrac : (k : ℚ) + 1 / 2 - k = 1 / 2 := by ring
    rw [hfrac, if_neg (lt_irrefl _), if_neg (lt_irrefl _)]
    split_ifs with he
    · exact he
    · exact Int.even_add_one.mpr he

/-- Claim C9, counterexample to the claim as stated: a caller-supplied
colour list `[5]` shorter than the two categories is extended in place by
`map_colors`, so after the call the caller's list is `[5, 1]`, not the
original `[5]`. -/
theorem claim9_cx : callerCAfter (fun i => i) 2 [5] ≠ [5] := by decide

/-- Claim C9 (amended): each call is a deterministic function of its
inputs, but the caller-supplied colour list `c` is NOT always left
unchanged: when `c` is shorter than `categories`, `self.c.extend(...)`
mutates the caller's list through the alias, leaving it with exactly
`len(categories)` entries (equal to the reconciled list the call uses);
when `c` is at least as long, the caller's list is untouched (the cutting
branch rebinds a fresh slice). -/
theorem claim9_mutation {α : Type} (cmap : ℕ → α) (ncat : ℕ) (cs : List α) :
    (ncat ≤ cs.length → callerCAfter cmap ncat cs = cs) ∧
    (cs.length < ncat →
      callerCAfter cmap ncat cs = cs ++ ((List.range ncat).map cmap).drop cs.length ∧
      (callerCAfter cmap ncat cs).length = ncat ∧
      mapColorsC cmap ncat (some cs) = callerCAfter cmap ncat cs) := by
  constructor
  · intro hle
    unfold callerCAfter
    rw [if_neg (by omega)]
  · intro hlt
    simp only [callerCAfter, mapColorsC]
    rw [if_pos hlt, if_pos hlt]
    refine ⟨rfl, ?_, rfl⟩
    simp only [List.length_append, List.length_drop, List.length_map, List.length_range]
    omega

/-- Claim C9, witness: the amended theorem applied with the identity
colormap, once to a list long enough (left unchanged), once to a too
short list (extended in place to the category count). -/
theorem claim9_witness :
    callerCAfter (fun i => i) 2 [5, 6] = [5, 6] ∧
    (callerCAfter (fun i => i) 3 [5] = [5] ++ ((List.range 3).map fun i => i).drop 1 ∧
      (callerCAfter (fun i => i) 3 [5]).length = 3 ∧
      mapColorsC (fun i => i) 3 (some [5]) = callerCAfter (fun i => i) 3 [5]) :=
  ⟨(claim9_mutation (fun i => i) 2 [5, 6]).1 (by decide),
   (claim9_mutation (fun i => i) 3 [5]).2 (by decide)⟩

/-- Claim C10, counterexample to its final consequence: for values
`[8,1,1]` at 2 × 2 with autoscale off, the rounded counts are `[3,0,0]`;
the counts of the categories before the third sum to 3, strictly less
than width × height = 4, yet category 3 (cell value 3) is missing from
the returned grid `[[1,1],[1,2]]`: two zero-count categories stacked at
the end leave room for only the first of them. -/
theorem claim10_cx :
    createArray ["a", "b", "c"] [8, 1, 1] 2 2 true false 1 =
      some (.ok ⟨[[1, 1], [1, 2]], 2, 2, [4/5, 1/10, 1/10], 2, [4/5, 1/10, 1/10]⟩) ∧
    tilesPerCategory (propsNZ ["a", "b", "c"] [8, 1, 1]) 4 = [3, 0, 0] ∧
    prefixSum (tilesPerCategory (propsNZ ["a", "b", "c"] [8, 1, 1]) 4) 2 < 4 ∧
    (3 : ℕ) ∉ ([[1, 1], [1, 2]] : List (List ℕ)).flatten := by
  refine ⟨by decide, by decide, by decide, by decide⟩

/-- Claim C10 (amended): in the grid-fill loop the category index
advances by at most one per cell.  Consequently category `v` (1-based
position among the non-zero-proportion categories, written as cell value
`v`) occupies at least one cell iff for EVERY `j < v` the cumulative
rounded counts of the first `j` categories plus the number of categories
from `j+1` through `v` is at most width × height.  The original claim's
weaker criterion — only the preceding counts (`j = v - 1`) below
width × height — is not sufficient when several zero-count categories
stack at the end (see the counterexample). -/
theorem claim10_lazy_advance :
    (∀ (tiles : List ℤ) (t : ℕ), catAt tiles (t + 1) ≤ catAt tiles t + 1) ∧
    (∀ (tiles : List ℤ) (w h : ℕ) (vt : Bool) (v : ℕ), 1 ≤ v →
      (v ∈ (makeGrid tiles w h vt).flatten ↔
        ∀ j, j < v → prefixSum tiles j + ((v : ℤ) - j) ≤ ((w * h : ℕ) : ℤ))) := by
  constructor
  · exact catAt_succ_le
  · intro tiles w h vt v hv
    rw [mem_makeGrid]
    constructor
    · rintro ⟨t, ht1, ht2, rfl⟩
      exact char_of_le_catAt tiles (w * h) _ hv (catAt_mono tiles ht2)
    · intro hchar
      exact catAt_ivt tiles hv (le_catAt_of_char tiles v (w * h) hv hchar)

/-- Claim C10, witness: the amended criterion applied to counts `[3,0,0]`
on a 2 × 2 grid shows category 2 present (cell value 2 in the grid). -/
theorem claim10_witness : (2 : ℕ) ∈ (makeGrid [3, 0, 0] 2 2 true).flatten :=
  (claim10_lazy_advance.2 [3, 0, 0] 2 2 true 2 (by decide)).mpr (by decide)

theorem createArray_isSome {cats : List String} {vals : List ℚ} {w h : ℕ}
    {vt as : Bool} {fuel : ℕ}
    (h1 : ¬(cats.zip vals).isEmpty = true)
    (h2 : ¬((sortedVals cats vals).sum = 0 ∧
      0 < ((sortedVals cats vals).filter fun v => decide (0 < v)).length))
    (h3 : (allocLoop (propsNZ cats vals) vt as w h fuel).isSome = true) :
    (createArray cats vals w h vt as fuel).isSome = true := by
  simp only [createArray]
  rw [if_neg h1, if_neg h2]
  rcases hl : allocLoop (propsNZ cats vals) vt as w h fuel with _ | ⟨W, H⟩
  · rw [hl] at h3; simp at h3
  · rfl

/-- Claim C7, counterexample to the stated worst-case bound: for values
`[7,7,2]` the proportions are `7/16, 7/16, 1/8`, so
`1/min(proportions_non_zero) = 8`; starting at width 4, height 2 the
first grid already has `width × height = 8 ≥ 8`, yet the loop rejects it
(both 3.5-tile targets round UP to 4, exhausting all 8 tiles before the
third category) and retries, so one unit of fuel is not enough. -/
theorem claim7_cx :
    (1 : ℚ) / minProp (propsNZ ["a", "b", "c"] [7, 7, 2]) ≤ ((4 * 2 : ℕ) : ℚ) ∧
    createArray ["a", "b", "c"] [7, 7, 2] 4 2 true true 1 = none := by
  refine ⟨by decide, by decide⟩

/-- Claim C7 (amended): for equal-length, nonempty, all-positive inputs
with autoscale on, the retry loop terminates, and a PROVEN worst case is
`width × height ≥ (N + 1) / (2 × min(proportions_non_zero))` with `N` the
number of categories: any iteration whose grid already meets this bound
is accepted immediately (fuel 1 suffices), and `⌈bound⌉ + 1` units of
fuel always suffice from any start.  The spec's stated bound
`1/min(proportions_non_zero)` is not always enough (see the
counterexample). -/
theorem claim7_termination {cats : List String} {vals : List ℚ}
    (hlen : cats.length = vals.length) (hne : vals ≠ [])
    (hpos : ∀ v ∈ vals, 0 < v) (vt : Bool) :
    (∀ w h : ℕ,
      (((propsNZ cats vals).length : ℚ) + 1) / (2 * minProp (propsNZ cats vals)) ≤
          ((w * h : ℕ) : ℚ) →
        (createArray cats vals w h vt true 1).isSome = true) ∧
    (∀ w h : ℕ,
      (createArray cats vals w h vt true
        (⌈(((propsNZ cats vals).length : ℚ) + 1) /
            (2 * minProp (propsNZ cats vals))⌉₊ + 1)).isSome = true) := by
  have hzipne : ¬(cats.zip vals).isEmpty = true := by
    have hl : (cats.zip vals).length = vals.length := by
      rw [List.length_zip, hlen, Nat.min_self]
    simp only [List.isEmpty_iff]
    intro hnil
    rw [hnil] at hl
    exact hne (List.eq_nil_of_length_eq_zero hl.symm)
  have hsumpos := sortedVals_sum_pos hlen hne hpos
  have hguard2 : ¬((sortedVals cats vals).sum = 0 ∧
      0 < ((sortedVals cats vals).filter fun v => decide (0 < v)).length) := by
    rintro ⟨he, _⟩
    rw [he] at hsumpos
    exact lt_irrefl 0 hsumpos
  have hpropsne := propsNZ_ne_nil hlen hne hpos
  have hppos := propsNZ_pos hlen hne hpos
  have hpsum := propsNZ_sum hlen hne hpos
  constructor
  · intro w h hbound
    apply createArray_isSome hzipne hguard2
    have hacc := accept_of_big hpropsne hppos hpsum hbound
    simp only [allocLoop]
    rw [if_neg (by rw [distinct_makeGrid]; omega)]
    rfl
  · intro w h
    exact createArray_isSome hzipne hguard2 (allocLoop_terminates hpropsne hppos hpsum vt w h)

/-- Claim C7, witness: the amended theorem applied to values `[3,1]`
(bound `(2+1)/(2·(1/4)) = 6`): a 5 × 5 start (25 ≥ 6) finishes in one
iteration, and fuel `⌈6⌉ + 1` finishes from a 1 × 1 start. -/
theorem claim7_witness :
    (createArray ["a", "b"] [3, 1] 5 5 true true 1).isSome = true ∧
    (createArray ["a", "b"] [3, 1] 1 1 true true
      (⌈(((propsNZ ["a", "b"] [3, 1]).length : ℚ) + 1) /
          (2 * minProp (propsNZ ["a", "b"] [3, 1]))⌉₊ + 1)).isSome = true :=
  ⟨(claim7_termination (by decide) (by decide) (by decide) true).1 5 5 (by decide),
   (claim7_termination (by decide) (by decide) (by decide) true).2 1 1⟩

/-- Claim C6 (confirmed): for the same categories and values, the run
with `vertical = false`, width `h`, height `w` is exactly the transpose
of the run with `vertical = true`, width `w`, height `h`: every outcome
(error, fuel exhaustion, success) corresponds, the two autoscale loops
move in lockstep, and on success the horizontal grid is the transpose of
the vertical grid with the width and height fields swapped and all other
fields equal. -/
theorem claim6_orientation (cats : List String) (vals : List ℚ)
    (w h : ℕ) (as : Bool) (fuel : ℕ) :
    createArray cats vals h w false as fuel =
      Option.map (Except.map swapResult) (createArray cats vals w h true as fuel) := by
  simp only [createArray]
  by_cases h1 : (cats.zip vals).isEmpty
  · rw [if_pos h1, if_pos h1]; rfl
  rw [if_neg h1, if_neg h1]
  by_cases h2 : (sortedVals cats vals).sum = 0 ∧
      0 < ((sortedVals cats vals).filter fun v => decide (0 < v)).length
  · rw [if_pos h2, if_pos h2]; rfl
  rw [if_neg h2, if_neg h2]
  rcases hl : allocLoop (propsNZ cats vals) true as w h fuel with _ | ⟨W, H⟩
  · have hl2 : allocLoop (propsNZ cats vals) false as h w fuel = none := by
      rw [allocLoop_swap (propsNZ cats vals) as fuel w h, hl]; rfl
    rw [hl2]
    rfl
  · have hl2 : allocLoop (propsNZ cats vals) false as h w fuel = some (H, W) := by
      rw [allocLoop_swap (propsNZ cats vals) as fuel w h, hl]; rfl
    rw [hl2]
    dsimp only [Option.map, Except.map, swapResult]
    rw [distinct_makeGrid, distinct_makeGrid, Nat.mul_comm H W, makeGrid_swap]

/-- Claim C6 holds in particular for the 3-category example `[8,1,1]` on
a 2 × 2 request: both orientations return, and the horizontal grid is the
transposed vertical grid with swapped dimensions (this closed instance is
recorded for concreteness; the claim theorem itself has no hypotheses). -/
theorem claim6_instance :
    createArray ["a", "b", "c"] [8, 1, 1] 2 3 false false 1 =
      Option.map (Except.map swapResult)
        (createArray ["a", "b", "c"] [8, 1, 1] 3 2 true false 1) :=
  claim6_orientation ["a", "b", "c"] [8, 1, 1] 3 2 false 1

end WafflePlot
